import Mathlib

/-!
Verification of the environment-composition engine of the `binit` command
(`main.go`). The Go source is shallowly embedded: Go maps are modelled as
association lists (Go map iteration order is irrelevant to the per-key and
sorted-output properties proved here), Go slices as lists, and the panic on
an out-of-range slice index as `Option.none`. The external regular-expression
compiler (`regexp.Compile`) is an abstract parameter of `copyImports`; the
concrete instantiation `goRegexpCompile` captures the regular expressions
actually produced by `compileWildcard` (anchored at both ends, with `.`
matching any character except newline, as in Go's regexp package).
-/

namespace Binit

/-- Atoms of the regular expression produced by `compileWildcard`:
a quoted literal character (`regexp.QuoteMeta` of one rune), `.` and `.*`. -/
inductive RAtom where
  | lit : Char → RAtom
  | anyOne : RAtom
  | anyStar : RAtom
deriving DecidableEq, Repr

/-- Loop of Go `compileWildcard` (main.go:49-80): scans the splat string with
an escape flag; a backslash always sets the flag (even when it is already
set), an escaped character is emitted as a literal, unescaped `*` and `?`
become `.*` and `.`, and a pending escape at the end of the string emits a
literal backslash. -/
def compileWildcardAux : List Char → Bool → List RAtom
  | [], esc => if esc then [RAtom.lit '\\'] else []
  | r :: rest, esc =>
    if r = '\\' then compileWildcardAux rest true
    else if esc then RAtom.lit r :: compileWildcardAux rest false
    else if r = '*' then RAtom.anyStar :: compileWildcardAux rest false
    else if r = '?' then RAtom.anyOne :: compileWildcardAux rest false
    else RAtom.lit r :: compileWildcardAux rest false

/-- Go `compileWildcard` (main.go:49-80), as the atom list of the regular
expression `^ ... $` it builds. -/
def compileWildcard (splat : String) : List RAtom :=
  compileWildcardAux splat.data false

/-- Matching of the produced regular expression against a whole string
(`^` and `$` anchors; Go regexp `.` matches any rune except newline). -/
def reMatch : List RAtom → List Char → Bool
  | [], [] => true
  | [], _ :: _ => false
  | RAtom.lit _ :: _, [] => false
  | RAtom.lit c :: ts, d :: ds => c = d && reMatch ts ds
  | RAtom.anyOne :: _, [] => false
  | RAtom.anyOne :: ts, d :: ds => decide (d ≠ '\n') && reMatch ts ds
  | RAtom.anyStar :: ts, [] => reMatch ts []
  | RAtom.anyStar :: ts, d :: ds =>
    reMatch ts (d :: ds) || (decide (d ≠ '\n') && reMatch (RAtom.anyStar :: ts) ds)
termination_by ts ds => (ds.length, ts.length)

/-- The regular expressions emitted by `compileWildcard` always compile
(they consist of `^`, `$`, quoted literals, `.` and `.*` only), so the
concrete compile step always succeeds with the matcher of the pattern. -/
def goRegexpCompile (m : String) : Option (String → Bool) :=
  some (fun k => reMatch (compileWildcard m) k.data)

/-- Go `strings.ContainsAny(m, "*?")` (main.go:208). -/
def hasMeta (m : String) : Bool :=
  m.data.any (fun c => c = '*' || c = '?')

/-! ### Environment snapshot and value accumulator -/

/-- Go `map[string]string`, as an association list with at most one entry
per key (`envSet` keeps keys unique). -/
abbrev EnvMap := List (String × String)

/-- Go `map[string][]string` (the Value Accumulator). -/
abbrev Acc := List (String × List String)

def envLookup : EnvMap → String → Option String
  | [], _ => none
  | (k', v) :: rest, k => if k' = k then some v else envLookup rest k

/-- Go map assignment `env[k] = v` on an `EnvMap`. -/
def envSet : EnvMap → String → String → EnvMap
  | [], k, v => [(k, v)]
  | (k', v') :: rest, k, v =>
    if k' = k then (k', v) :: rest else (k', v') :: envSet rest k v

def accFind : Acc → String → Option (List String)
  | [], _ => none
  | (k', v) :: rest, k => if k' = k then some v else accFind rest k

/-- Go `dst[k]` as a slice read: `nil` (the empty list) when absent. -/
def accVals (dst : Acc) (k : String) : List String :=
  (accFind dst k).getD []

/-- Go `dst[k] = append(dst[k], vs...)`. -/
def accAppend : Acc → String → List String → Acc
  | [], k, vs => [(k, vs)]
  | (k', v') :: rest, k, vs =>
    if k' = k then (k', v' ++ vs) :: rest else (k', v') :: accAppend rest k vs

/-- Go map assignment `dst[k] = vs` on an `Acc`. -/
def accSet : Acc → String → List String → Acc
  | [], k, vs => [(k, vs)]
  | (k', v') :: rest, k, vs =>
    if k' = k then (k', vs) :: rest else (k', v') :: accSet rest k vs

/-! ### parseEnv -/

/-- Index of the first `'='`, as Go `strings.IndexByte(pair, '=')`
(`none` for `-1`). -/
def firstEq : List Char → Option Nat
  | [] => none
  | c :: rest =>
    if c = '=' then some 0 else (firstEq rest).map (· + 1)

/-- One iteration of the Go `parseEnv` loop body (main.go:243-250): split the
pair at the first `'='`; a pair with no `'='` maps the whole string to `""`. -/
def parseEnvEntry (pair : String) : String × String :=
  match firstEq pair.data with
  | none => (pair, "")
  | some idx => (⟨pair.data.take idx⟩, ⟨pair.data.drop (idx + 1)⟩)

/-- Go `parseEnv` (main.go:241-252). -/
def parseEnv (environ : List String) : EnvMap :=
  environ.foldl (fun env pair => envSet env (parseEnvEntry pair).1 (parseEnvEntry pair).2) []

/-! ### Import filter -/

/-- Go `copyLiteral` (main.go:229-233): append the snapshot value, if
present, to the accumulator entry for that name (unconditionally). -/
def copyLiteral (dst : Acc) (src : EnvMap) (name : String) : Acc :=
  match envLookup src name with
  | some v => accAppend dst name [v]
  | none => dst

/-- Go `copyValues` (main.go:235-239): append each snapshot value to its
key's sequence. -/
def copyValues (dst : Acc) (src : EnvMap) : Acc :=
  src.foldl (fun d kv => accAppend d kv.1 [kv.2]) dst

/-- Inner loop of Go `copyImports` for a compiled wildcard (main.go:220-225):
for each snapshot key, skip it when already present in the accumulator or not
matched; otherwise set its entry to the one-element sequence. -/
def wildcardCopy (dst : Acc) (src : EnvMap) (pat : String → Bool) : Acc :=
  src.foldl
    (fun d kv => if (accFind d kv.1).isSome || !pat kv.1 then d else accSet d kv.1 [kv.2]) dst

/-- One iteration of the Go `copyImports` loop (main.go:207-226): a spec
without `*` or `?` is copied literally; otherwise the wildcard is compiled,
a compile failure falls back to the literal copy, and a compiled matcher
runs `wildcardCopy`. -/
def importStep (compile : String → Option (String → Bool)) (dst : Acc) (src : EnvMap)
    (m : String) : Acc :=
  if !hasMeta m then copyLiteral dst src m
  else
    match compile m with
    | none => copyLiteral dst src m
    | some pat => wildcardCopy dst src pat

/-- Go `copyImports` (main.go:206-227), parameterised by the external
regular-expression compile step. -/
def copyImports (compile : String → Option (String → Bool)) (dst : Acc) (src : EnvMap) :
    List String → Acc
  | [] => dst
  | m :: rest => copyImports compile (importStep compile dst src m) src rest

/-! ### Compiler/serializer -/

/-- Go `strings.Join(v, sep)`. -/
def joinSep : List String → String → String
  | [], _ => ""
  | [s], _ => s
  | s :: rest, sep => s ++ sep ++ joinSep (rest) sep

/-- Body of the Go `compileEnv` loop (main.go:190-201) for one accumulator
entry. With drop-repeats the kept index is `0` for keep-first and `len(v)-1`
otherwise; the slice access `v[keptIndex]` panics when out of range,
modelled by `none`. Without drop-repeats the values are joined with the
separator. -/
def compileEnvEntry (dropRepeats keepFirst : Bool) (sep : String) (kv : String × List String) :
    Option String :=
  if dropRepeats then
    let keptIndex := if keepFirst then 0 else kv.2.length - 1
    match kv.2[keptIndex]? with
    | some x => some (kv.1 ++ "=" ++ x)
    | none => none
  else some (kv.1 ++ "=" ++ joinSep kv.2 sep)

/-- Go `compileEnv` (main.go:188-204): one `KEY=VALUE` pair per accumulator
entry; a panic of the loop body is modelled by `none`. -/
def compileEnv : Acc → Bool → Bool → String → Option (List String)
  | [], _, _, _ => some []
  | kv :: rest, dropRepeats, keepFirst, sep =>
    match compileEnvEntry dropRepeats keepFirst sep kv, compileEnv rest dropRepeats keepFirst sep with
    | some p, some env => some (p :: env)
    | _, _ => none

/-- Go `sort.Strings(env)` (main.go:161): lexicographic sort of the full
`KEY=VALUE` strings. (UTF-8 byte order coincides with code-point order.) -/
def sortStrings (env : List String) : List String :=
  List.insertionSort (· ≤ ·) env

/-! ### Main composition (main.go:126-161) -/

/-- The policy flags of `main` that the composition engine reads. -/
structure Config where
  dropRepeats : Bool
  keepFirst : Bool
  configLast : Bool
  clean : Bool
  imports : List String
  assigned : List String
  sep : String

/-- Go closure `importValues` in `main` (main.go:133-141): merge the
command-line assignments, then either the whole current environment
(when not clean and no explicit imports were given) or the imports. -/
def importValues (cfg : Config) (current : EnvMap) (values : Acc) : Acc :=
  let copyCurrent := !cfg.clean && cfg.imports.isEmpty
  let values := copyValues values (parseEnv cfg.assigned)
  if copyCurrent then copyValues values current
  else copyImports goRegexpCompile values current cfg.imports

/-- Modelled from the spec: the external INI decoder (`go.spiff.io/go-ini`,
not part of this repository) parses the `-f` files into key/value pairs and
merges them into the accumulator; per the spec's collaborator contract each
merge is a pure append of the parsed values to the key's sequence, in file
order. The pairs of all input files, in order, are the `iniPairs` input. -/
def mergeConfig (values : Acc) (iniPairs : List (String × String)) : Acc :=
  iniPairs.foldl (fun d kv => accAppend d kv.1 [kv.2]) values

/-- The accumulator built by `main` (main.go:126-158): environment before
files by default, files before environment when the config-last flag is
set. -/
def accumulate (cfg : Config) (current : EnvMap) (iniPairs : List (String × String)) : Acc :=
  let values : Acc := []
  let values := if !cfg.configLast then importValues cfg current values else values
  let values := mergeConfig values iniPairs
  if cfg.configLast then importValues cfg current values else values

/-- The composed, serialized, sorted environment of `main` (main.go:106-161).
Per main.go:106-108 the keep-first flag implies drop-repeats. -/
def composeEnv (cfg : Config) (current : EnvMap) (iniPairs : List (String × String)) :
    Option (List String) :=
  let dropRepeats := cfg.dropRepeats || cfg.keepFirst
  (compileEnv (accumulate cfg current iniPairs) dropRepeats cfg.keepFirst cfg.sep).map sortStrings

/-! ### Spec-side wildcard semantics

These definitions follow the specification's words for the Wildcard Matcher,
to be compared with the matcher the code actually builds: a backslash escapes
the next character so it matches literally (an unclosed trailing escape is a
literal backslash), an unescaped `*` matches zero or more of any character,
an unescaped `?` matches exactly one of any character, anchored at both
ends. -/

inductive GlobTok where
  | lit : Char → GlobTok
  | star : GlobTok
  | qmark : GlobTok
deriving DecidableEq, Repr

/-- Tokenization per the spec's words: a backslash escapes the next
character (whatever it is) to a literal. -/
def specGlobLex : List Char → List GlobTok
  | [] => []
  | '\\' :: [] => [GlobTok.lit '\\']
  | '\\' :: c :: rest => GlobTok.lit c :: specGlobLex rest
  | '*' :: rest => GlobTok.star :: specGlobLex rest
  | '?' :: rest => GlobTok.qmark :: specGlobLex rest
  | c :: rest => GlobTok.lit c :: specGlobLex rest

/-- Matching per the spec's words: `*` matches zero or more of any
character, `?` exactly one of any character, full-string anchored. -/
def specGlobMatch : List GlobTok → List Char → Bool
  | [], [] => true
  | [], _ :: _ => false
  | GlobTok.lit _ :: _, [] => false
  | GlobTok.lit c :: ts, d :: ds => c = d && specGlobMatch ts ds
  | GlobTok.qmark :: _, [] => false
  | GlobTok.qmark :: ts, _ :: ds => specGlobMatch ts ds
  | GlobTok.star :: ts, [] => specGlobMatch ts []
  | GlobTok.star :: ts, d :: ds =>
    specGlobMatch ts (d :: ds) || specGlobMatch (GlobTok.star :: ts) ds
termination_by ts ds => (ds.length, ts.length)

/-- Declarative semantics of the regular expressions built by
`compileWildcard`: a literal matches its own character, `.` matches one
non-newline character, `.*` matches any run of non-newline characters. -/
inductive DeclMatch : List RAtom → List Char → Prop where
  | nil : DeclMatch [] []
  | lit {c ts s} : DeclMatch ts s → DeclMatch (RAtom.lit c :: ts) (c :: s)
  | one {d ts s} : d ≠ '\n' → DeclMatch ts s → DeclMatch (RAtom.anyOne :: ts) (d :: s)
  | star {pre suf ts} : (∀ c ∈ pre, c ≠ '\n') → DeclMatch ts suf →
      DeclMatch (RAtom.anyStar :: ts) (pre ++ suf)

/-! ### Unfolding equations for the fold-based merges -/

theorem copyValues_cons (d : Acc) (kv : String × String) (rest : EnvMap) :
    copyValues d (kv :: rest) = copyValues (accAppend d kv.1 [kv.2]) rest := rfl

theorem wildcardCopy_cons (d : Acc) (kv : String × String) (rest : EnvMap)
    (pat : String → Bool) :
    wildcardCopy d (kv :: rest) pat
      = wildcardCopy (if (accFind d kv.1).isSome || !pat kv.1 then d else accSet d kv.1 [kv.2])
          rest pat := rfl

theorem mergeConfig_cons (d : Acc) (kv : String × String) (rest : List (String × String)) :
    mergeConfig d (kv :: rest) = mergeConfig (accAppend d kv.1 [kv.2]) rest := rfl

/-! ### Association-list lemmas -/

theorem envLookup_envSet_self (m : EnvMap) (k v : String) :
    envLookup (envSet m k v) k = some v := by
  induction m with
  | nil => simp [envSet, envLookup]
  | cons kv rest ih =>
    obtain ⟨k', v'⟩ := kv
    by_cases h : k' = k <;> simp [envSet, envLookup, h, ih]

theorem accFind_accAppend_self (d : Acc) (k : String) (vs : List String) :
    accFind (accAppend d k vs) k = some (accVals d k ++ vs) := by
  induction d with
  | nil => simp [accAppend, accFind, accVals]
  | cons kv rest ih =>
    obtain ⟨k', v'⟩ := kv
    by_cases h : k' = k <;> simp [accAppend, accFind, accVals, h, ih]

theorem accFind_accAppend_ne (d : Acc) {k' k : String} (vs : List String) (h : k' ≠ k) :
    accFind (accAppend d k' vs) k = accFind d k := by
  induction d with
  | nil => simp [accAppend, accFind, h]
  | cons kv rest ih =>
    obtain ⟨k₀, v₀⟩ := kv
    by_cases h₀ : k₀ = k' <;> simp [accAppend, accFind, h₀, h, ih]

theorem accFind_accSet_self (d : Acc) (k : String) (vs : List String) :
    accFind (accSet d k vs) k = some vs := by
  induction d with
  | nil => simp [accSet, accFind]
  | cons kv rest ih =>
    obtain ⟨k', v'⟩ := kv
    by_cases h : k' = k <;> simp [accSet, accFind, h, ih]

theorem accFind_accSet_ne (d : Acc) {k' k : String} (vs : List String) (h : k' ≠ k) :
    accFind (accSet d k' vs) k = accFind d k := by
  induction d with
  | nil => simp [accSet, accFind, h]
  | cons kv rest ih =>
    obtain ⟨k₀, v₀⟩ := kv
    by_cases h₀ : k₀ = k' <;> simp [accSet, accFind, h₀, h, ih]

theorem accVals_accAppend_self (d : Acc) (k : String) (vs : List String) :
    accVals (accAppend d k vs) k = accVals d k ++ vs := by
  simp [accVals, accFind_accAppend_self]

theorem accVals_accAppend_ne (d : Acc) {k' k : String} (vs : List String) (h : k' ≠ k) :
    accVals (accAppend d k' vs) k = accVals d k := by
  simp [accVals, accFind_accAppend_ne d vs h]

theorem accFind_some_mem {d : Acc} {k : String} {vs : List String}
    (h : accFind d k = some vs) : (k, vs) ∈ d := by
  induction d with
  | nil => simp [accFind] at h
  | cons kv rest ih =>
    obtain ⟨k', v'⟩ := kv
    by_cases h' : k' = k
    · subst h'
      simp [accFind] at h
      simp [h]
    · simp [accFind, h'] at h
      exact List.mem_cons_of_mem _ (ih h)

/-! ### Per-key extension: every merge step only appends to a key's
sequence -/

/-- d' extends d per key: each key's value sequence in d' is the one in d
followed by some (possibly empty) tail. -/
def AccExt (d d' : Acc) : Prop := ∀ k, ∃ t, accVals d' k = accVals d k ++ t

theorem AccExt.refl (d : Acc) : AccExt d d := fun k => ⟨[], by simp⟩

theorem AccExt.trans {a b c : Acc} (h₁ : AccExt a b) (h₂ : AccExt b c) : AccExt a c := by
  intro k
  obtain ⟨t₁, e₁⟩ := h₁ k
  obtain ⟨t₂, e₂⟩ := h₂ k
  exact ⟨t₁ ++ t₂, by simp [e₂, e₁]⟩

theorem accExt_accAppend (d : Acc) (k : String) (vs : List String) :
    AccExt d (accAppend d k vs) := by
  intro k'
  by_cases h : k = k'
  · subst h
    exact ⟨vs, accVals_accAppend_self d k vs⟩
  · exact ⟨[], by simp [accVals_accAppend_ne d vs h]⟩

theorem accExt_accSet_of_absent {d : Acc} {k : String} (vs : List String)
    (h : accFind d k = none) : AccExt d (accSet d k vs) := by
  intro k'
  by_cases hk : k = k'
  · subst hk
    exact ⟨vs, by simp [accVals, accFind_accSet_self, h]⟩
  · exact ⟨[], by simp [accVals, accFind_accSet_ne d vs hk]⟩

theorem accExt_copyValues (d : Acc) (src : EnvMap) : AccExt d (copyValues d src) := by
  induction src generalizing d with
  | nil => exact AccExt.refl d
  | cons kv rest ih =>
    exact AccExt.trans (accExt_accAppend d kv.1 [kv.2]) (ih (accAppend d kv.1 [kv.2]))

theorem accExt_copyLiteral (d : Acc) (src : EnvMap) (m : String) :
    AccExt d (copyLiteral d src m) := by
  unfold copyLiteral
  cases envLookup src m with
  | none => exact AccExt.refl d
  | some v => exact accExt_accAppend d m [v]

theorem accExt_wildcardCopy (d : Acc) (src : EnvMap) (pat : String → Bool) :
    AccExt d (wildcardCopy d src pat) := by
  induction src generalizing d with
  | nil => exact AccExt.refl d
  | cons kv rest ih =>
    unfold wildcardCopy
    simp only [List.foldl_cons]
    by_cases h : (accFind d kv.1).isSome || !pat kv.1
    · simpa [wildcardCopy, h] using ih d
    · have habs : accFind d kv.1 = none := by
        cases hf : accFind d kv.1 with
        | none => rfl
        | some vs => simp [hf] at h
      simp only [h]
      exact AccExt.trans (accExt_accSet_of_absent [kv.2] habs)
        (by simpa [wildcardCopy] using ih (accSet d kv.1 [kv.2]))

theorem accExt_importStep (compile : String → Option (String → Bool)) (d : Acc)
    (src : EnvMap) (m : String) : AccExt d (importStep compile d src m) := by
  unfold importStep
  by_cases h : (!hasMeta m) = true
  · rw [if_pos h]
    exact accExt_copyLiteral d src m
  · rw [if_neg h]
    cases compile m with
    | none => exact accExt_copyLiteral d src m
    | some pat => exact accExt_wildcardCopy d src pat

theorem copyImports_cons (compile : String → Option (String → Bool)) (d : Acc)
    (src : EnvMap) (m : String) (rest : List String) :
    copyImports compile d src (m :: rest)
      = copyImports compile (importStep compile d src m) src rest := rfl

theorem accExt_copyImports (compile : String → Option (String → Bool)) (d : Acc)
    (src : EnvMap) (imports : List String) : AccExt d (copyImports compile d src imports) := by
  induction imports generalizing d with
  | nil => exact AccExt.refl d
  | cons m rest ih =>
    rw [copyImports_cons]
    exact AccExt.trans (accExt_importStep compile d src m) (ih _)

theorem accExt_importValues (cfg : Config) (current : EnvMap) (d : Acc) :
    AccExt d (importValues cfg current d) := by
  unfold importValues
  by_cases h : !cfg.clean && cfg.imports.isEmpty
  · simp only [h, if_true]
    exact AccExt.trans (accExt_copyValues d (parseEnv cfg.assigned))
      (accExt_copyValues _ current)
  · simp only [h, if_false]
    exact AccExt.trans (accExt_copyValues d (parseEnv cfg.assigned))
      (accExt_copyImports _ _ current cfg.imports)

/-! ### Well-formedness: every present key has at least one value -/

/-- The spec's accumulator invariant: a key present in the accumulator
always has at least one value. -/
def AccWF (acc : Acc) : Prop := ∀ kv ∈ acc, kv.2 ≠ ([] : List String)

theorem accWF_nil : AccWF [] := by simp [AccWF]

theorem accWF_accAppend {d : Acc} (h : AccWF d) {k : String} {vs : List String}
    (hvs : vs ≠ []) : AccWF (accAppend d k vs) := by
  induction d with
  | nil => simpa [accAppend, AccWF] using hvs
  | cons kv rest ih =>
    obtain ⟨k', v'⟩ := kv
    have h' : AccWF rest := fun kv hm => h kv (List.mem_cons_of_mem _ hm)
    have hhd : v' ≠ [] := h (k', v') (List.mem_cons_self _ _)
    by_cases hk : k' = k
    · intro kv hm
      simp only [accAppend, hk, if_true] at hm
      rcases List.mem_cons.mp hm with h₁ | h₁
      · subst h₁
        simp [hvs]
      · exact h' kv h₁
    · intro kv hm
      simp only [accAppend, hk, if_false] at hm
      rcases List.mem_cons.mp hm with h₁ | h₁
      · subst h₁
        exact hhd
      · exact ih h' kv h₁

theorem accWF_accSet {d : Acc} (h : AccWF d) {k : String} {vs : List String}
    (hvs : vs ≠ []) : AccWF (accSet d k vs) := by
  induction d with
  | nil => simpa [accSet, AccWF] using hvs
  | cons kv rest ih =>
    obtain ⟨k', v'⟩ := kv
    have h' : AccWF rest := fun kv hm => h kv (List.mem_cons_of_mem _ hm)
    have hhd : v' ≠ [] := h (k', v') (List.mem_cons_self _ _)
    by_cases hk : k' = k
    · intro kv hm
      simp only [accSet, hk, if_true] at hm
      rcases List.mem_cons.mp hm with h₁ | h₁
      · subst h₁
        simp [hvs]
      · exact h' kv h₁
    · intro kv hm
      simp only [accSet, hk, if_false] at hm
      rcases List.mem_cons.mp hm with h₁ | h₁
      · subst h₁
        exact hhd
      · exact ih h' kv h₁

theorem accWF_copyValues {d : Acc} (h : AccWF d) (src : EnvMap) :
    AccWF (copyValues d src) := by
  induction src generalizing d with
  | nil => exact h
  | cons kv rest ih =>
    exact ih (accWF_accAppend h (by simp))

theorem accWF_copyLiteral {d : Acc} (h : AccWF d) (src : EnvMap) (m : String) :
    AccWF (copyLiteral d src m) := by
  unfold copyLiteral
  cases envLookup src m with
  | none => exact h
  | some v => exact accWF_accAppend h (by simp)

theorem accWF_wildcardCopy {d : Acc} (h : AccWF d) (src : EnvMap) (pat : String → Bool) :
    AccWF (wildcardCopy d src pat) := by
  induction src generalizing d with
  | nil => exact h
  | cons kv rest ih =>
    rw [wildcardCopy_cons]
    by_cases hc : ((accFind d kv.1).isSome || !pat kv.1) = true
    · rw [if_pos hc]
      exact ih h
    · rw [if_neg hc]
      exact ih (accWF_accSet h (by simp))

theorem accWF_importStep (compile : String → Option (String → Bool)) {d : Acc}
    (h : AccWF d) (src : EnvMap) (m : String) : AccWF (importStep compile d src m) := by
  unfold importStep
  by_cases hm : (!hasMeta m) = true
  · rw [if_pos hm]
    exact accWF_copyLiteral h src m
  · rw [if_neg hm]
    cases compile m with
    | none => exact accWF_copyLiteral h src m
    | some pat => exact accWF_wildcardCopy h src pat

theorem accWF_copyImports (compile : String → Option (String → Bool)) {d : Acc}
    (h : AccWF d) (src : EnvMap) (imports : List String) :
    AccWF (copyImports compile d src imports) := by
  induction imports generalizing d with
  | nil => exact h
  | cons m rest ih =>
    rw [copyImports_cons]
    exact ih (accWF_importStep compile h src m)

theorem accWF_mergeConfig {d : Acc} (h : AccWF d) (ps : List (String × String)) :
    AccWF (mergeConfig d ps) := by
  induction ps generalizing d with
  | nil => exact h
  | cons kv rest ih =>
    rw [mergeConfig_cons]
    exact ih (accWF_accAppend h (by simp))

theorem accWF_importValues (cfg : Config) (current : EnvMap) {d : Acc} (h : AccWF d) :
    AccWF (importValues cfg current d) := by
  unfold importValues
  by_cases hc : !cfg.clean && cfg.imports.isEmpty
  · simp only [hc, if_true]
    exact accWF_copyValues (accWF_copyValues h _) _
  · simp only [hc, if_false]
    exact accWF_copyImports _ (accWF_copyValues h _) _ _

theorem accWF_accumulate (cfg : Config) (current : EnvMap) (ini : List (String × String)) :
    AccWF (accumulate cfg current ini) := by
  unfold accumulate
  by_cases h : cfg.configLast <;>
    simp only [h, Bool.not_true, Bool.not_false, if_true, if_false] <;>
    first
    | exact accWF_importValues cfg current (accWF_mergeConfig accWF_nil ini)
    | exact accWF_mergeConfig (accWF_importValues cfg current accWF_nil) ini

/-! ### Per-key contribution of the INI files -/

/-- The values the INI pairs contribute for one key, in order. -/
def iniVals : List (String × String) → String → List String
  | [], _ => []
  | (k', v) :: rest, k => if k' = k then v :: iniVals rest k else iniVals rest k

theorem mergeConfig_accVals (d : Acc) (ps : List (String × String)) (k : String) :
    accVals (mergeConfig d ps) k = accVals d k ++ iniVals ps k := by
  induction ps generalizing d with
  | nil => simp [mergeConfig, iniVals]
  | cons kv rest ih =>
    obtain ⟨k', v⟩ := kv
    rw [mergeConfig_cons, ih]
    by_cases h : k' = k
    · subst h
      simp [iniVals, accVals_accAppend_self]
    · simp [iniVals, h, accVals_accAppend_ne d [v] h]

/-! ### The accumulator's keys stay distinct -/

def accKeys (d : Acc) : List String := d.map Prod.fst

theorem accFind_eq_none_iff (d : Acc) (k : String) :
    accFind d k = none ↔ k ∉ accKeys d := by
  induction d with
  | nil => simp [accFind, accKeys]
  | cons kv rest ih =>
    obtain ⟨k', v'⟩ := kv
    by_cases h : k' = k
    · subst h
      simp [accFind, accKeys]
    · simp [accFind, accKeys, h, ih, Ne.symm h]

theorem accKeys_accAppend (d : Acc) (k : String) (vs : List String) :
    accKeys (accAppend d k vs)
      = if (accFind d k).isSome then accKeys d else accKeys d ++ [k] := by
  induction d with
  | nil => simp [accAppend, accFind, accKeys]
  | cons kv rest ih =>
    obtain ⟨k', v'⟩ := kv
    by_cases h : k' = k
    · simp [accAppend, accFind, accKeys, h]
    · by_cases hf : (accFind rest k).isSome <;>
        simp [accAppend, accFind, accKeys, h, hf] at * <;> simp [ih]

theorem accKeys_accSet (d : Acc) (k : String) (vs : List String) :
    accKeys (accSet d k vs)
      = if (accFind d k).isSome then accKeys d else accKeys d ++ [k] := by
  induction d with
  | nil => simp [accSet, accFind, accKeys]
  | cons kv rest ih =>
    obtain ⟨k', v'⟩ := kv
    by_cases h : k' = k
    · simp [accSet, accFind, accKeys, h]
    · by_cases hf : (accFind rest k).isSome <;>
        simp [accSet, accFind, accKeys, h, hf] at * <;> simp [ih]

theorem accKeysNodup_accAppend {d : Acc} (h : (accKeys d).Nodup) (k : String)
    (vs : List String) : (accKeys (accAppend d k vs)).Nodup := by
  rw [accKeys_accAppend]
  by_cases hf : (accFind d k).isSome
  · simp [hf, h]
  · have hk : k ∉ accKeys d :=
      (accFind_eq_none_iff d k).mp (Option.not_isSome_iff_eq_none.mp hf)
    simp [hf, List.nodup_append, h, hk]

theorem accKeysNodup_accSet {d : Acc} (h : (accKeys d).Nodup) (k : String)
    (vs : List String) : (accKeys (accSet d k vs)).Nodup := by
  rw [accKeys_accSet]
  by_cases hf : (accFind d k).isSome
  · simp [hf, h]
  · have hk : k ∉ accKeys d :=
      (accFind_eq_none_iff d k).mp (Option.not_isSome_iff_eq_none.mp hf)
    simp [hf, List.nodup_append, h, hk]

theorem accKeysNodup_copyValues {d : Acc} (h : (accKeys d).Nodup) (src : EnvMap) :
    (accKeys (copyValues d src)).Nodup := by
  induction src generalizing d with
  | nil => exact h
  | cons kv rest ih => exact ih (accKeysNodup_accAppend h kv.1 [kv.2])

theorem accKeysNodup_copyLiteral {d : Acc} (h : (accKeys d).Nodup) (src : EnvMap)
    (m : String) : (accKeys (copyLiteral d src m)).Nodup := by
  unfold copyLiteral
  cases envLookup src m with
  | none => exact h
  | some v => exact accKeysNodup_accAppend h m [v]

theorem accKeysNodup_wildcardCopy {d : Acc} (h : (accKeys d).Nodup) (src : EnvMap)
    (pat : String → Bool) : (accKeys (wildcardCopy d src pat)).Nodup := by
  induction src generalizing d with
  | nil => exact h
  | cons kv rest ih =>
    rw [wildcardCopy_cons]
    by_cases hc : ((accFind d kv.1).isSome || !pat kv.1) = true
    · rw [if_pos hc]
      exact ih h
    · rw [if_neg hc]
      exact ih (accKeysNodup_accSet h kv.1 [kv.2])

theorem accKeysNodup_importStep (compile : String → Option (String → Bool)) {d : Acc}
    (h : (accKeys d).Nodup) (src : EnvMap) (m : String) :
    (accKeys (importStep compile d src m)).Nodup := by
  unfold importStep
  by_cases hm : (!hasMeta m) = true
  · rw [if_pos hm]
    exact accKeysNodup_copyLiteral h src m
  · rw [if_neg hm]
    cases compile m with
    | none => exact accKeysNodup_copyLiteral h src m
    | some pat => exact accKeysNodup_wildcardCopy h src pat

theorem accKeysNodup_copyImports (compile : String → Option (String → Bool)) {d : Acc}
    (h : (accKeys d).Nodup) (src : EnvMap) (imports : List String) :
    (accKeys (copyImports compile d src imports)).Nodup := by
  induction imports generalizing d with
  | nil => exact h
  | cons m rest ih =>
    rw [copyImports_cons]
    exact ih (accKeysNodup_importStep compile h src m)

theorem accKeysNodup_mergeConfig {d : Acc} (h : (accKeys d).Nodup)
    (ps : List (String × String)) : (accKeys (mergeConfig d ps)).Nodup := by
  induction ps generalizing d with
  | nil => exact h
  | cons kv rest ih =>
    rw [mergeConfig_cons]
    exact ih (accKeysNodup_accAppend h kv.1 [kv.2])

theorem accKeysNodup_importValues (cfg : Config) (current : EnvMap) {d : Acc}
    (h : (accKeys d).Nodup) : (accKeys (importValues cfg current d)).Nodup := by
  unfold importValues
  by_cases hc : !cfg.clean && cfg.imports.isEmpty
  · simp only [hc, if_true]
    exact accKeysNodup_copyValues (accKeysNodup_copyValues h _) _
  · simp only [hc, if_false]
    exact accKeysNodup_copyImports _ (accKeysNodup_copyValues h _) _ _

theorem accKeysNodup_accumulate (cfg : Config) (current : EnvMap)
    (ini : List (String × String)) : (accKeys (accumulate cfg current ini)).Nodup := by
  unfold accumulate
  have hnil : (accKeys ([] : Acc)).Nodup := by simp [accKeys]
  by_cases h : cfg.configLast <;>
    simp only [h, Bool.not_true, Bool.not_false, if_true, if_false] <;>
    first
    | exact accKeysNodup_importValues cfg current (accKeysNodup_mergeConfig hnil ini)
    | exact accKeysNodup_mergeConfig (accKeysNodup_importValues cfg current hnil) ini

/-! ### Compiler/serializer lemmas -/

theorem compileEnv_cons_eq_some {kv : String × List String} {rest : Acc}
    {dr kf : Bool} {sep : String} {out : List String} :
    compileEnv (kv :: rest) dr kf sep = some out
      ↔ ∃ p env, compileEnvEntry dr kf sep kv = some p
          ∧ compileEnv rest dr kf sep = some env ∧ out = p :: env := by
  cases hp : compileEnvEntry dr kf sep kv with
  | none => simp [compileEnv, hp]
  | some p =>
    cases he : compileEnv rest dr kf sep with
    | none => simp [compileEnv, hp, he]
    | some env =>
      simp only [compileEnv, hp, he]
      constructor
      · intro h
        exact ⟨p, env, rfl, rfl, (Option.some_inj.mp h).symm⟩
      · rintro ⟨p', env', hp', he', rfl⟩
        simp only [Option.some_inj] at hp' he'
        simp [hp', he']

theorem compileEnvEntry_isSome {kv : String × List String} (h : kv.2 ≠ [])
    (dr kf : Bool) (sep : String) : (compileEnvEntry dr kf sep kv).isSome := by
  unfold compileEnvEntry
  by_cases hdr : dr
  · have hpos : 0 < kv.2.length := List.length_pos.mpr h
    have hlt : (if kf then 0 else kv.2.length - 1) < kv.2.length := by
      by_cases hkf : kf <;> simp [hkf, hpos]
    simp [hdr, List.getElem?_eq_getElem hlt]
  · simp [hdr]

theorem compileEnv_isSome {acc : Acc} (h : AccWF acc) (dr kf : Bool) (sep : String) :
    (compileEnv acc dr kf sep).isSome := by
  induction acc with
  | nil => simp [compileEnv]
  | cons kv rest ih =>
    have hv : kv.2 ≠ [] := h kv (List.mem_cons_self _ _)
    have hrest := ih (fun kv hm => h kv (List.mem_cons_of_mem _ hm))
    obtain ⟨env, henv⟩ := Option.isSome_iff_exists.mp hrest
    obtain ⟨p, hp⟩ := Option.isSome_iff_exists.mp (compileEnvEntry_isSome hv dr kf sep)
    simp [compileEnv, hp, henv]

theorem compileEnv_length {acc : Acc} {dr kf : Bool} {sep : String} {out : List String}
    (h : compileEnv acc dr kf sep = some out) : out.length = acc.length := by
  induction acc generalizing out with
  | nil => simp [compileEnv] at h; simp [h.symm]
  | cons kv rest ih =>
    obtain ⟨p, env, _, he, rfl⟩ := compileEnv_cons_eq_some.mp h
    simp [ih he]

theorem compileEnv_mem {acc : Acc} {dr kf : Bool} {sep : String} {out : List String}
    (h : compileEnv acc dr kf sep = some out) {kv : String × List String} (hm : kv ∈ acc) :
    ∃ p, compileEnvEntry dr kf sep kv = some p ∧ p ∈ out := by
  induction acc generalizing out with
  | nil => simp at hm
  | cons kv' rest ih =>
    obtain ⟨p, env, hp, he, rfl⟩ := compileEnv_cons_eq_some.mp h
    rcases List.mem_cons.mp hm with h₁ | h₁
    · subst h₁
      exact ⟨p, hp, List.mem_cons_self _ _⟩
    · obtain ⟨q, hq, hqm⟩ := ih he h₁
      exact ⟨q, hq, List.mem_cons_of_mem _ hqm⟩

theorem compileEnvEntry_keepFirst {kv : String × List String} (h : kv.2 ≠ [])
    (sep : String) :
    compileEnvEntry true true sep kv = some (kv.1 ++ "=" ++ kv.2.headD "") := by
  unfold compileEnvEntry
  cases hv : kv.2 with
  | nil => exact absurd hv h
  | cons x xs => simp [hv]

theorem compileEnv_keepFirst {acc : Acc} (h : AccWF acc) (sep : String) :
    compileEnv acc true true sep
      = some (acc.map (fun kv => kv.1 ++ "=" ++ kv.2.headD "")) := by
  induction acc with
  | nil => simp [compileEnv]
  | cons kv rest ih =>
    have hv : kv.2 ≠ [] := h kv (List.mem_cons_self _ _)
    have hrest := ih (fun kv hm => h kv (List.mem_cons_of_mem _ hm))
    simp [compileEnv, compileEnvEntry_keepFirst hv sep, hrest]

/-! ### Sorting lemmas -/

theorem sortStrings_sorted (l : List String) : List.Sorted (· ≤ ·) (sortStrings l) :=
  List.sorted_insertionSort (· ≤ ·) l

theorem sortStrings_perm (l : List String) : List.Perm (sortStrings l) l :=
  List.perm_insertionSort (· ≤ ·) l

theorem mem_sortStrings {l : List String} {x : String} : x ∈ sortStrings l ↔ x ∈ l :=
  (sortStrings_perm l).mem_iff

/-! ### parseEnv lemmas -/

theorem parseEnv_append_singleton (environ : List String) (p : String) :
    parseEnv (environ ++ [p])
      = envSet (parseEnv environ) (parseEnvEntry p).1 (parseEnvEntry p).2 := by
  simp [parseEnv, List.foldl_append]

theorem firstEq_of_no_eq {s : List Char} (h : '=' ∉ s) : firstEq s = none := by
  induction s with
  | nil => rfl
  | cons c rest ih =>
    have hc : ¬c = '=' := fun hh => h (hh ▸ List.mem_cons_self _ _)
    simp [firstEq, hc, ih (fun hm => h (List.mem_cons_of_mem _ hm))]

theorem firstEq_append {name : List Char} (value : List Char) (h : '=' ∉ name) :
    firstEq (name ++ '=' :: value) = some name.length := by
  induction name with
  | nil => simp [firstEq]
  | cons c rest ih =>
    have hc : ¬c = '=' := fun hh => h (hh ▸ List.mem_cons_self _ _)
    simp [firstEq, hc, ih (fun hm => h (List.mem_cons_of_mem _ hm))]

theorem parseEnvEntry_pair (name value : String) (h : '=' ∉ name.data) :
    parseEnvEntry (name ++ "=" ++ value) = (name, value) := by
  unfold parseEnvEntry
  have hdata : (name ++ "=" ++ value).data = name.data ++ '=' :: value.data := by
    simp [String.data_append]
  rw [hdata, firstEq_append value.data h]
  have htake : (name.data ++ '=' :: value.data).take name.data.length = name.data :=
    List.take_left name.data ('=' :: value.data)
  have hdrop : (name.data ++ '=' :: value.data).drop (name.data.length + 1) = value.data := by
    rw [List.append_cons name.data '=' value.data]
    have hlen : (name.data ++ ['=']).length = name.data.length + 1 := by simp
    rw [← hlen]
    exact List.drop_left (name.data ++ ['=']) value.data
  simp only [htake, hdrop]

theorem parseEnvEntry_bare (s : String) (h : '=' ∉ s.data) :
    parseEnvEntry s = (s, "") := by
  unfold parseEnvEntry
  rw [firstEq_of_no_eq h]

/-! ### Import-filter step lemmas -/

theorem copyImports_nil (compile : String → Option (String → Bool)) (dst : Acc)
    (src : EnvMap) : copyImports compile dst src [] = dst := rfl

theorem importStep_literal (compile : String → Option (String → Bool)) (dst : Acc)
    (src : EnvMap) (m : String) (hm : hasMeta m = false) :
    importStep compile dst src m = copyLiteral dst src m := by
  simp [importStep, hm]

theorem importStep_fallback (compile : String → Option (String → Bool)) (dst : Acc)
    (src : EnvMap) (m : String) (hm : hasMeta m = true) (hc : compile m = none) :
    importStep compile dst src m = copyLiteral dst src m := by
  simp [importStep, hm, hc]

theorem importStep_wildcard (compile : String → Option (String → Bool)) (dst : Acc)
    (src : EnvMap) (m : String) (pat : String → Bool)
    (hm : hasMeta m = true) (hc : compile m = some pat) :
    importStep compile dst src m = wildcardCopy dst src pat := by
  simp [importStep, hm, hc]

theorem copyLiteral_found {src : EnvMap} {m v : String} (dst : Acc)
    (h : envLookup src m = some v) :
    accVals (copyLiteral dst src m) m = accVals dst m ++ [v] := by
  unfold copyLiteral
  simp [h, accVals_accAppend_self]

theorem copyLiteral_missing {src : EnvMap} {m : String} (dst : Acc)
    (h : envLookup src m = none) : copyLiteral dst src m = dst := by
  unfold copyLiteral
  simp [h]

theorem wildcardCopy_find_present {dst : Acc} {k : String} {vs : List String}
    (src : EnvMap) (pat : String → Bool) (h : accFind dst k = some vs) :
    accFind (wildcardCopy dst src pat) k = some vs := by
  induction src generalizing dst with
  | nil => exact h
  | cons kv rest ih =>
    rw [wildcardCopy_cons]
    by_cases hc : ((accFind dst kv.1).isSome || !pat kv.1) = true
    · rw [if_pos hc]
      exact ih h
    · rw [if_neg hc]
      have hne : kv.1 ≠ k := by
        intro he
        rw [he, h] at hc
        simp at hc
      exact ih (by rw [accFind_accSet_ne dst [kv.2] hne, h])

theorem wildcardCopy_find_absent {dst : Acc} {k : String} (src : EnvMap)
    (pat : String → Bool) (h : accFind dst k = none) (vs : List String)
    (hres : accFind (wildcardCopy dst src pat) k = some vs) :
    pat k = true ∧ ∃ v, (k, v) ∈ src ∧ vs = [v] := by
  induction src generalizing dst with
  | nil =>
    rw [show wildcardCopy dst [] pat = dst from rfl, h] at hres
    exact absurd hres (by simp)
  | cons kv rest ih =>
    rw [wildcardCopy_cons] at hres
    by_cases hc : ((accFind dst kv.1).isSome || !pat kv.1) = true
    · rw [if_pos hc] at hres
      obtain ⟨hp, v, hmem, hv⟩ := ih h hres
      exact ⟨hp, v, List.mem_cons_of_mem _ hmem, hv⟩
    · rw [if_neg hc] at hres
      have hpat : pat kv.1 = true := by
        cases hp : pat kv.1
        · simp [hp] at hc
        · rfl
      by_cases hk : kv.1 = k
      · subst hk
        have hfound : accFind (accSet dst kv.1 [kv.2]) kv.1 = some [kv.2] :=
          accFind_accSet_self dst kv.1 [kv.2]
        have h2 := wildcardCopy_find_present rest pat hfound
        rw [h2] at hres
        exact ⟨hpat, kv.2, List.mem_cons_self _ _, (Option.some_inj.mp hres).symm⟩
      · have habs : accFind (accSet dst kv.1 [kv.2]) k = none := by
          rw [accFind_accSet_ne dst [kv.2] hk, h]
        obtain ⟨hp, v, hmem, hv⟩ := ih habs hres
        exact ⟨hp, v, List.mem_cons_of_mem _ hmem, hv⟩

/-! ### Equivalence of the built matcher with its declarative semantics -/

theorem reMatch_sound {ts : List RAtom} {ds : List Char} (h : reMatch ts ds = true) :
    DeclMatch ts ds := by
  induction ts, ds using reMatch.induct with
  | case1 => exact DeclMatch.nil
  | case2 d ds => simp [reMatch] at h
  | case3 c ts => simp [reMatch] at h
  | case4 c ts d ds ih =>
    simp only [reMatch, Bool.and_eq_true, decide_eq_true_eq] at h
    exact h.1 ▸ DeclMatch.lit (ih h.2)
  | case5 ts => simp [reMatch] at h
  | case6 ts d ds ih =>
    simp only [reMatch, Bool.and_eq_true, decide_eq_true_eq] at h
    exact DeclMatch.one h.1 (ih h.2)
  | case7 ts ih =>
    have h0 : reMatch ts [] = true := by simpa [reMatch] using h
    have h1 : DeclMatch (RAtom.anyStar :: ts) (([] : List Char) ++ []) :=
      DeclMatch.star (fun c hc => absurd hc (by simp)) (ih h0)
    simpa using h1
  | case8 ts d ds ih1 ih2 =>
    simp only [reMatch, Bool.or_eq_true, Bool.and_eq_true, decide_eq_true_eq] at h
    rcases h with h | ⟨hd, h⟩
    · have h1 : DeclMatch (RAtom.anyStar :: ts) (([] : List Char) ++ (d :: ds)) :=
        DeclMatch.star (fun c hc => absurd hc (by simp)) (ih1 h)
      simpa using h1
    · cases ih2 h with
      | star hpre hsuf =>
        rename_i pre suf
        have h1 : DeclMatch (RAtom.anyStar :: ts) ((d :: pre) ++ suf) :=
          DeclMatch.star
            (fun c hc => by
              rcases List.mem_cons.mp hc with rfl | hc
              · exact hd
              · exact hpre c hc) hsuf
        simpa using h1

theorem reMatch_star_lift {ts : List RAtom} {ds : List Char} (h : reMatch ts ds = true) :
    reMatch (RAtom.anyStar :: ts) ds = true := by
  cases ds with
  | nil => simpa [reMatch] using h
  | cons d ds => simp [reMatch, h]

theorem reMatch_star_pre (ts : List RAtom) (suf : List Char) :
    ∀ pre, (∀ c ∈ pre, c ≠ '\n') → reMatch (RAtom.anyStar :: ts) suf = true →
      reMatch (RAtom.anyStar :: ts) (pre ++ suf) = true := by
  intro pre
  induction pre with
  | nil =>
    intro _ h
    simpa using h
  | cons c pre ih =>
    intro hpre h
    have hc : c ≠ '\n' := hpre c (List.mem_cons_self _ _)
    have hr := ih (fun x hx => hpre x (List.mem_cons_of_mem _ hx)) h
    simp [reMatch, hc, hr]

theorem reMatch_complete {ts : List RAtom} {ds : List Char} (h : DeclMatch ts ds) :
    reMatch ts ds = true := by
  induction h with
  | nil => simp [reMatch]
  | lit h ih => simp [reMatch, ih]
  | one hd h ih => simp [reMatch, hd, ih]
  | star hpre hsuf ih =>
    rename_i pre suf ts
    exact reMatch_star_pre ts suf pre hpre (reMatch_star_lift ih)

theorem compileWildcardAux_lits {p : List Char}
    (h : ∀ c ∈ p, c ≠ '*' ∧ c ≠ '?' ∧ c ≠ '\\') :
    compileWildcardAux p false = p.map RAtom.lit := by
  induction p with
  | nil => rfl
  | cons c rest ih =>
    obtain ⟨h1, h2, h3⟩ := h c (List.mem_cons_self _ _)
    simp [compileWildcardAux, h1, h2, h3, ih (fun x hx => h x (List.mem_cons_of_mem _ hx))]

theorem reMatch_lits (p : List Char) : ∀ s, reMatch (p.map RAtom.lit) s = true ↔ s = p := by
  induction p with
  | nil =>
    intro s
    cases s <;> simp [reMatch]
  | cons c rest ih =>
    intro s
    cases s with
    | nil => simp [reMatch]
    | cons d ds =>
      simp only [List.map_cons, reMatch, Bool.and_eq_true, decide_eq_true_eq, ih,
        List.cons.injEq]
      constructor
      · rintro ⟨rfl, h2⟩
        exact ⟨rfl, h2⟩
      · rintro ⟨rfl, h2⟩
        exact ⟨rfl, h2⟩

/-! ### Unfolding the main composition -/

theorem accumulate_default (cfg : Config) (cur : EnvMap) (ini : List (String × String))
    (h : cfg.configLast = false) :
    accumulate cfg cur ini = mergeConfig (importValues cfg cur []) ini := by
  unfold accumulate
  simp [h]

theorem accumulate_configLast (cfg : Config) (cur : EnvMap) (ini : List (String × String))
    (h : cfg.configLast = true) :
    accumulate cfg cur ini = importValues cfg cur (mergeConfig [] ini) := by
  unfold accumulate
  simp [h]

theorem composeEnv_eq_some {cfg : Config} {cur : EnvMap} {ini : List (String × String)}
    {out : List String} (h : composeEnv cfg cur ini = some out) :
    ∃ ents, compileEnv (accumulate cfg cur ini) (cfg.dropRepeats || cfg.keepFirst)
        cfg.keepFirst cfg.sep = some ents ∧ out = sortStrings ents := by
  simp only [composeEnv, Option.map_eq_some'] at h
  obtain ⟨ents, he, hout⟩ := h
  exact ⟨ents, he, hout.symm⟩

theorem compileEnvEntry_first_eq (sep : String) (kv : String × List String) :
    compileEnvEntry true true sep kv
      = match kv.2[(0 : Nat)]? with
        | some x => some (kv.1 ++ "=" ++ x)
        | none => none := rfl

theorem compileEnvEntry_last_eq (sep : String) (kv : String × List String) :
    compileEnvEntry true false sep kv
      = match kv.2[kv.2.length - 1]? with
        | some x => some (kv.1 ++ "=" ++ x)
        | none => none := rfl

theorem compileEnvEntry_join_eq (kf : Bool) (sep : String) (kv : String × List String) :
    compileEnvEntry false kf sep kv = some (kv.1 ++ "=" ++ joinSep kv.2 sep) := rfl

/-! ## Claims -/

/-- C1 counterexample: with the accumulator already holding FOO ↦ ["x"] from
a higher-precedence source and the snapshot holding FOO=1, the literal import
spec "FOO" is not skipped — the snapshot value is appended, so the
existing value sequence changes, contradicting the claim that an
already-populated key is left unchanged by a literal import. -/
theorem literal_import_skip_counterexample :
    accVals (copyImports goRegexpCompile [("FOO", ["x"])] [("FOO", "1")] ["FOO"]) "FOO"
        = ["x", "1"]
      ∧ ["x", "1"] ≠ (["x"] : List String) := by
  constructor
  · decide
  · decide

/-- C1 (amended): for an import spec with no wildcard metacharacter that is
present in the snapshot, the import filter appends the snapshot value to the
accumulator's sequence for that key unconditionally — whether or not an
entry already exists from a higher-precedence source — and leaves the
accumulator unchanged when the spec is absent from the snapshot; processing
then continues with the remaining specs. -/
theorem literal_import_appends_unconditionally (compile : String → Option (String → Bool))
    (dst : Acc) (src : EnvMap) (m : String) (rest : List String)
    (hm : hasMeta m = false) :
    copyImports compile dst src (m :: rest)
        = copyImports compile (copyLiteral dst src m) src rest
      ∧ (∀ v, envLookup src m = some v →
          accVals (copyLiteral dst src m) m = accVals dst m ++ [v])
      ∧ (envLookup src m = none → copyLiteral dst src m = dst) := by
  refine ⟨?_, fun v hv => copyLiteral_found dst hv, fun hn => copyLiteral_missing dst hn⟩
  rw [copyImports_cons, importStep_literal compile dst src m hm]

/-- Witness for C1 (amended) at a concrete input: FOO is already populated
with ["x"], the snapshot maps FOO to "1", and the literal import appends. -/
theorem literal_import_appends_unconditionally_witness :
    accVals (copyLiteral [("FOO", ["x"])] [("FOO", "1")] "FOO") "FOO"
      = accVals [("FOO", ["x"])] "FOO" ++ ["1"] :=
  (literal_import_appends_unconditionally goRegexpCompile [("FOO", ["x"])] [("FOO", "1")]
    "FOO" [] (by decide)).2.1 "1" (by decide)

/-- C2: with the config-precedence flag unset, the accumulated sequence of
every key is exactly the environment/command-line contribution followed by
the INI-file contribution; with the flag set, every key's sequence starts
with the INI-file contribution and the environment/command-line values only
follow it. -/
theorem merge_order_respects_config_precedence (cfg : Config) (cur : EnvMap)
    (ini : List (String × String)) (k : String) :
    (cfg.configLast = false →
        accVals (accumulate cfg cur ini) k
          = accVals (importValues cfg cur []) k ++ iniVals ini k)
      ∧ (cfg.configLast = true →
          ∃ envTail, accVals (accumulate cfg cur ini) k = iniVals ini k ++ envTail) := by
  constructor
  · intro h
    rw [accumulate_default cfg cur ini h, mergeConfig_accVals]
  · intro h
    rw [accumulate_configLast cfg cur ini h]
    obtain ⟨t, ht⟩ := accExt_importValues cfg cur (mergeConfig [] ini) k
    refine ⟨t, ?_⟩
    rw [ht, mergeConfig_accVals]
    simp [accVals, accFind]

/-- Witness for C2 at a concrete input: default precedence, assignment
X=1 and INI pair X=2. -/
theorem merge_order_respects_config_precedence_witness :
    accVals (accumulate ⟨false, false, false, true, [], ["X=1"], " "⟩ [] [("X", "2")]) "X"
      = accVals (importValues ⟨false, false, false, true, [], ["X=1"], " "⟩ [] []) "X"
        ++ iniVals [("X", "2")] "X" :=
  (merge_order_respects_config_precedence ⟨false, false, false, true, [], ["X=1"], " "⟩
    [] [("X", "2")] "X").1 rfl

/-- C7: the environment snapshot parser splits every NAME=VALUE entry at the
first occurrence of the equals sign only — so the value may itself contain
equals signs — and maps a bare entry with no equals sign to the empty
string. (The snapshot is a map, so the last entry for a name wins; the
statement reads the final entry for the name.) -/
theorem parseEnv_splits_at_first_eq (environ : List String) (name value bare : String) :
    ('=' ∉ name.data →
        envLookup (parseEnv (environ ++ [name ++ "=" ++ value])) name = some value)
      ∧ ('=' ∉ bare.data →
          envLookup (parseEnv (environ ++ [bare])) bare = some "") := by
  constructor
  · intro h
    rw [parseEnv_append_singleton, parseEnvEntry_pair name value h]
    exact envLookup_envSet_self _ _ _
  · intro h
    rw [parseEnv_append_singleton, parseEnvEntry_bare bare h]
    exact envLookup_envSet_self _ _ _

/-- Witness for C7 at a concrete input: the value "1=2" itself contains an
equals sign and survives intact. -/
theorem parseEnv_splits_at_first_eq_witness :
    envLookup (parseEnv (["A=0"] ++ ["FOO" ++ "=" ++ "1=2"])) "FOO" = some "1=2" :=
  (parseEnv_splits_at_first_eq ["A=0"] "FOO" "1=2" "BAR").1 (by decide)

/-- C8: for an import spec containing a wildcard metacharacter whose
compiled pattern is rejected by the matching-expression compiler, the import
filter falls back to treating the original pattern string as a
literal variable name — so if it is also absent from the snapshot the
accumulator is untouched — and processing continues with the remaining
specs. -/
theorem wildcard_compile_failure_falls_back (compile : String → Option (String → Bool))
    (dst : Acc) (src : EnvMap) (m : String) (rest : List String)
    (hm : hasMeta m = true) (hc : compile m = none) :
    copyImports compile dst src (m :: rest)
        = copyImports compile (copyLiteral dst src m) src rest
      ∧ (envLookup src m = none →
          copyImports compile dst src (m :: rest) = copyImports compile dst src rest) := by
  have h1 : copyImports compile dst src (m :: rest)
      = copyImports compile (copyLiteral dst src m) src rest := by
    rw [copyImports_cons, importStep_fallback compile dst src m hm hc]
  refine ⟨h1, fun hn => ?_⟩
  rw [h1, copyLiteral_missing dst hn]

/-- Witness for C8 at a concrete input, with a compile step that rejects
every pattern. -/
theorem wildcard_compile_failure_falls_back_witness :
    copyImports (fun _ => none) [] [] ["a*"]
      = copyImports (fun _ => none) (copyLiteral [] [] "a*") [] [] :=
  (wildcard_compile_failure_falls_back (fun _ => none) [] [] "a*" [] (by decide) rfl).1

/-- C3: for every accumulator entry the serializer emits KEY=VALUE where,
with drop-repeats and keep-first, VALUE is the first accumulated value;
with drop-repeats and without keep-first, the last accumulated value; and
otherwise the join of all accumulated values, in order, with the configured
separator. In particular, with the assignment X=1 merged before the
INI-derived X=2 under default precedence, drop-repeats with keep-last
serializes X=2 and with keep-first X=1. -/
theorem compile_policy_selects_value :
    (∀ (acc : Acc) (dr kf : Bool) (sep : String) (out : List String)
        (kv : String × List String),
      compileEnv acc dr kf sep = some out → kv ∈ acc →
        (dr = true → kf = true → ∃ x, kv.2[0]? = some x ∧ (kv.1 ++ "=" ++ x) ∈ out)
          ∧ (dr = true → kf = false →
              ∃ x, kv.2[kv.2.length - 1]? = some x ∧ (kv.1 ++ "=" ++ x) ∈ out)
          ∧ (dr = false → (kv.1 ++ "=" ++ joinSep kv.2 sep) ∈ out))
      ∧ composeEnv ⟨true, false, false, true, [], ["X=1"], " "⟩ [] [("X", "2")]
          = some ["X=2"]
      ∧ composeEnv ⟨true, true, false, true, [], ["X=1"], " "⟩ [] [("X", "2")]
          = some ["X=1"] := by
  refine ⟨?_, by decide, by decide⟩
  intro acc dr kf sep out kv h hm
  obtain ⟨p, hp, hpm⟩ := compileEnv_mem h hm
  refine ⟨?_, ?_, ?_⟩
  · rintro rfl rfl
    rw [compileEnvEntry_first_eq] at hp
    cases hx : kv.2[(0 : Nat)]? with
    | none =>
      rw [hx] at hp
      exact absurd hp (by simp)
    | some x =>
      rw [hx] at hp
      have hpe : kv.1 ++ "=" ++ x = p := Option.some_inj.mp hp
      exact ⟨x, rfl, hpe ▸ hpm⟩
  · rintro rfl rfl
    rw [compileEnvEntry_last_eq] at hp
    cases hx : kv.2[kv.2.length - 1]? with
    | none =>
      rw [hx] at hp
      exact absurd hp (by simp)
    | some x =>
      rw [hx] at hp
      have hpe : kv.1 ++ "=" ++ x = p := Option.some_inj.mp hp
      exact ⟨x, rfl, hpe ▸ hpm⟩
  · rintro rfl
    rw [compileEnvEntry_join_eq] at hp
    have hpe : kv.1 ++ "=" ++ joinSep kv.2 sep = p := Option.some_inj.mp hp
    exact hpe ▸ hpm

/-- Witness for C3 at a concrete input: drop-repeats without keep-first
selects the last accumulated value of X ↦ ["1", "2"]. -/
theorem compile_policy_selects_value_witness :
    ∃ x, (["1", "2"] : List String)[(1 : Nat)]? = some x ∧ ("X" ++ "=" ++ x) ∈ ["X=2"] :=
  (compile_policy_selects_value.1 [("X", ["1", "2"])] true false " " ["X=2"]
    ("X", ["1", "2"]) (by decide) (by decide)).2.1 rfl rfl

/-- C4: a wildcard import spec never overwrites or extends a key already
present in the accumulator — present keys keep their value sequence — and
a key absent from the accumulator gains a value only when the compiled
matcher matches it, in which case the value is the snapshot's single value
for that key. -/
theorem wildcard_import_never_overwrites (dst : Acc) (src : EnvMap) (m k : String)
    (hm : hasMeta m = true) :
    (∀ vs, accFind dst k = some vs →
        accFind (copyImports goRegexpCompile dst src [m]) k = some vs)
      ∧ (accFind dst k = none →
          ∀ vs, accFind (copyImports goRegexpCompile dst src [m]) k = some vs →
            reMatch (compileWildcard m) k.data = true ∧ ∃ v, (k, v) ∈ src ∧ vs = [v]) := by
  have hstep : copyImports goRegexpCompile dst src [m]
      = wildcardCopy dst src (fun c => reMatch (compileWildcard m) c.data) := by
    rw [copyImports_cons,
      importStep_wildcard goRegexpCompile dst src m (fun c => reMatch (compileWildcard m) c.data)
        hm rfl]
    rfl
  rw [hstep]
  exact ⟨fun vs hvs => wildcardCopy_find_present src _ hvs,
    fun habs vs hres => wildcardCopy_find_absent src _ habs vs hres⟩

/-- Witness for C4 at a concrete input: key A is already populated and the
wildcard import of "A*" leaves its entry unchanged. -/
theorem wildcard_import_never_overwrites_witness :
    accFind (copyImports goRegexpCompile [("A", ["x"])] [("A", "1")] ["A*"]) "A"
      = some ["x"] :=
  (wildcard_import_never_overwrites [("A", ["x"])] [("A", "1")] "A*" "A" (by decide)).1
    ["x"] (by decide)

/-- C9: every merge operation preserves the invariant that a key present in
the accumulator has at least one value, and under this invariant the
serializer's indexed access never goes out of range — the whole composition
always produces a result (the panic branch, modelled by none, is
unreachable). -/
theorem accumulator_values_nonempty (compile : String → Option (String → Bool))
    (dst : Acc) (src : EnvMap) (m : String) (imports : List String)
    (ps : List (String × String)) :
    (AccWF dst → AccWF (copyLiteral dst src m))
      ∧ (AccWF dst → AccWF (copyValues dst src))
      ∧ (AccWF dst → AccWF (copyImports compile dst src imports))
      ∧ (AccWF dst → AccWF (mergeConfig dst ps))
      ∧ (∀ (acc : Acc) (dr kf : Bool) (sep : String),
          AccWF acc → (compileEnv acc dr kf sep).isSome)
      ∧ (∀ (cfg : Config) (cur : EnvMap) (ini : List (String × String)),
          (composeEnv cfg cur ini).isSome) := by
  refine ⟨fun h => accWF_copyLiteral h src m, fun h => accWF_copyValues h src,
    fun h => accWF_copyImports compile h src imports, fun h => accWF_mergeConfig h ps,
    fun acc dr kf sep h => compileEnv_isSome h dr kf sep, fun cfg cur ini => ?_⟩
  have h := compileEnv_isSome (accWF_accumulate cfg cur ini)
    (cfg.dropRepeats || cfg.keepFirst) cfg.keepFirst cfg.sep
  obtain ⟨env, henv⟩ := Option.isSome_iff_exists.mp h
  simp [composeEnv, henv]

/-- Witness for C9 at a concrete input: the empty accumulator is
well-formed and stays well-formed after a literal copy. -/
theorem accumulator_values_nonempty_witness :
    AccWF (copyLiteral [] [("K", "1")] "K") :=
  (accumulator_values_nonempty goRegexpCompile [] [("K", "1")] "K" [] []).1
    (by simp [AccWF])

/-- C10: setting keep-first alone forces drop-repeats (main.go:106-108), so
the composed output serializes every key to its first accumulated value —
never a joined multi-value string — and in particular each key with first
value v contributes the pair KEY=v to the output. -/
theorem keep_first_alone_selects_first (cfg : Config) (cur : EnvMap)
    (ini : List (String × String)) (h : cfg.keepFirst = true) :
    composeEnv cfg cur ini
        = some (sortStrings ((accumulate cfg cur ini).map
            (fun kv => kv.1 ++ "=" ++ kv.2.headD "")))
      ∧ ∀ k v vs, accFind (accumulate cfg cur ini) k = some (v :: vs) →
          ∃ out, composeEnv cfg cur ini = some out ∧ (k ++ "=" ++ v) ∈ out := by
  have hwf := accWF_accumulate cfg cur ini
  have h1 : composeEnv cfg cur ini
      = some (sortStrings ((accumulate cfg cur ini).map
          (fun kv => kv.1 ++ "=" ++ kv.2.headD ""))) := by
    simp only [composeEnv, h, Bool.or_true, compileEnv_keepFirst hwf cfg.sep,
      Option.map_some']
  refine ⟨h1, fun k v vs hf => ⟨_, h1, ?_⟩⟩
  rw [mem_sortStrings]
  exact List.mem_map.mpr ⟨(k, v :: vs), accFind_some_mem hf, by simp⟩

/-- Witness for C10 at a concrete input: keep-first is set while
drop-repeats is left unset, and the output still selects first values. -/
theorem keep_first_alone_selects_first_witness :
    composeEnv ⟨false, true, false, true, [], ["X=1"], " "⟩ [] [("X", "2")]
      = some (sortStrings ((accumulate ⟨false, true, false, true, [], ["X=1"], " "⟩
          [] [("X", "2")]).map (fun kv => kv.1 ++ "=" ++ kv.2.headD ""))) :=
  (keep_first_alone_selects_first ⟨false, true, false, true, [], ["X=1"], " "⟩
    [] [("X", "2")] rfl).1

/-- C5 counterexample: the matcher the code builds disagrees with the
spec's stated rules in two places. First, the translated `*` becomes `.*`,
which in Go's regexp package does not match a newline, so pattern a*b fails
on the candidate a-newline-b although the spec's "zero or more of any
character" matches it. Second, a backslash in the scanner always sets the
escape flag — even when the escape flag is already set — so in the
three-character pattern backslash-backslash-star the star ends up escaped
and the matcher accepts exactly the string "*", while under the spec's
rules the first backslash escapes the second and the star stays a wildcard,
so "*" is not accepted. -/
theorem wildcard_matcher_spec_counterexample :
    (reMatch (compileWildcard "a*b") "a\nb".data = false
        ∧ specGlobMatch (specGlobLex "a*b".data) "a\nb".data = true)
      ∧ (reMatch (compileWildcard "\\\\*") "*".data = true
          ∧ specGlobMatch (specGlobLex "\\\\*".data) "*".data = false) := by
  refine ⟨⟨?_, ?_⟩, ?_, ?_⟩ <;>
    simp [compileWildcard, compileWildcardAux, reMatch, specGlobLex, specGlobMatch]

/-- C5 (amended): the compiled matcher accepts a candidate string iff the
whole candidate (anchored at both ends) matches the atom sequence built
from the pattern, where a backslash always begins or extends an escape (the
escaped character is the next non-backslash character, matched literally;
a pattern ending inside an escape matches one literal trailing backslash),
an unescaped `*` matches zero or more characters other than newline, an
unescaped `?` matches exactly one character other than newline, and every
other character matches itself. Consequently a pattern containing no `*`,
`?` or backslash matches exactly the string equal to itself. -/
theorem wildcard_matcher_matches_iff (p s : String) :
    (reMatch (compileWildcard p) s.data = true ↔ DeclMatch (compileWildcard p) s.data)
      ∧ ((∀ c ∈ p.data, c ≠ '*' ∧ c ≠ '?' ∧ c ≠ '\\') →
          (reMatch (compileWildcard p) s.data = true ↔ s = p)) := by
  constructor
  · exact ⟨reMatch_sound, reMatch_complete⟩
  · intro h
    simp only [compileWildcard, compileWildcardAux_lits h]
    rw [reMatch_lits]
    exact ⟨fun hd => String.ext hd, fun hd => hd ▸ rfl⟩

/-- Witness for C5 (amended) at a concrete input: the metacharacter-free
pattern "ab" matches exactly itself. -/
theorem wildcard_matcher_matches_iff_witness :
    reMatch (compileWildcard "ab") "ab".data = true :=
  ((wildcard_matcher_matches_iff "ab" "ab").2 (by decide)).mpr rfl

/-- C6: the composed output is sorted lexicographically by the complete
KEY=VALUE string, and it is a permutation of the serialized accumulator
entries — one entry per accumulator key, the keys being pairwise
distinct. -/
theorem output_sorted_one_entry_per_key (cfg : Config) (cur : EnvMap)
    (ini : List (String × String)) (out : List String)
    (h : composeEnv cfg cur ini = some out) :
    List.Sorted (· ≤ ·) out
      ∧ (∃ ents,
          compileEnv (accumulate cfg cur ini) (cfg.dropRepeats || cfg.keepFirst)
              cfg.keepFirst cfg.sep = some ents
            ∧ List.Perm out ents
            ∧ ents.length = (accumulate cfg cur ini).length)
      ∧ (accKeys (accumulate cfg cur ini)).Nodup := by
  obtain ⟨ents, he, rfl⟩ := composeEnv_eq_some h
  exact ⟨sortStrings_sorted ents,
    ⟨ents, he, sortStrings_perm ents, compileEnv_length he⟩,
    accKeysNodup_accumulate cfg cur ini⟩

/-- Witness for C6 at a concrete input: clean mode with the single
assignment Z=9 yields the sorted singleton output. -/
theorem output_sorted_one_entry_per_key_witness :
    List.Sorted (· ≤ ·) ["Z=9"] :=
  (output_sorted_one_entry_per_key ⟨false, false, false, true, [], ["Z=9"], " "⟩ [] []
    ["Z=9"] (by decide)).1

end Binit
